import Mathlib

/-!
# Verification of the Kolon Mall product-URL scraper (`src/url.py`)

We shallow-embed the extraction and pagination logic of `url.py`:

* Python/JSON values that flow through the extractors are modelled by the
  inductive type `Json` (`Json.null` plays the role of Python `None`,
  which is what `json.loads` produces for JSON `null` and what `dict.get`
  returns for a missing key).
* A parsed HTML document (`BeautifulSoup` result) is modelled by `Soup`:
  the list of anchor elements (in document order, as returned by
  `soup.find_all('a', href=True)`) and the list of script-element strings
  (`script.string`, which may be `None`).
* Python `dict` is modelled by an insertion-ordered association list
  together with `dictInsert`, which reproduces Python assignment
  semantics: an existing key keeps its position but the stored value is
  replaced; a new key is appended.
* Python string operations (`find`, `rfind`, slicing, `split`, `replace`,
  `in`, `re.sub(r'[&?]page=\d+', '', ...)`) are modelled as structurally
  recursive functions on `List Char`; character indices coincide with
  Python's code-point indices.
* The standard-library effects the code relies on (`requests.get`
  followed by HTML parsing, and `json.loads`) are abstracted as function
  parameters `fetch` and `loads`; the theorems quantify over them.
-/

/-- Python/JSON values produced by `json.loads` (numbers restricted to
integers, which is all the claims need). `null` doubles as Python `None`. -/
inductive Json where
  | null : Json
  | bool (b : Bool) : Json
  | num (n : Int) : Json
  | str (s : String) : Json
  | arr (items : List Json) : Json
  | obj (fields : List (String × Json)) : Json
deriving Repr

mutual

/-- Structural equality on `Json` values (Python `==` restricted to the
comparisons the code performs). -/
def Json.beq : Json → Json → Bool
  | .null, .null => true
  | .bool a, .bool b => a == b
  | .num a, .num b => a == b
  | .str a, .str b => a == b
  | .arr as, .arr bs => Json.beqList as bs
  | .obj as, .obj bs => Json.beqFields as bs
  | _, _ => false

/-- Elementwise equality on lists of JSON values. -/
def Json.beqList : List Json → List Json → Bool
  | [], [] => true
  | a :: as, b :: bs => Json.beq a b && Json.beqList as bs
  | _, _ => false

/-- Elementwise equality on JSON object field lists. -/
def Json.beqFields : List (String × Json) → List (String × Json) → Bool
  | [], [] => true
  | (k1, v1) :: as, (k2, v2) :: bs =>
      k1 == k2 && Json.beq v1 v2 && Json.beqFields as bs
  | _, _ => false

end

mutual

def Json.beq_iff : ∀ a b, Json.beq a b = true ↔ a = b
  | .null, b => by cases b <;> simp [Json.beq]
  | .bool a, b => by cases b <;> simp [Json.beq]
  | .num a, b => by cases b <;> simp [Json.beq]
  | .str a, b => by cases b <;> simp [Json.beq]
  | .arr as, b => by
      cases b <;> simp [Json.beq]
      case arr bs => exact Json.beqList_iff as bs
  | .obj as, b => by
      cases b <;> simp [Json.beq]
      case obj bs => exact Json.beqFields_iff as bs

def Json.beqList_iff : ∀ as bs, Json.beqList as bs = true ↔ as = bs
  | [], bs => by cases bs <;> simp [Json.beqList]
  | a :: as, bs => by
      cases bs with
      | nil => simp [Json.beqList]
      | cons b bs =>
          simp [Json.beqList, Json.beq_iff a b, Json.beqList_iff as bs]

def Json.beqFields_iff : ∀ as bs, Json.beqFields as bs = true ↔ as = bs
  | [], bs => by cases bs <;> simp [Json.beqFields]
  | (k1, v1) :: as, bs => by
      cases bs with
      | nil => simp [Json.beqFields]
      | cons b bs =>
          cases b with
          | mk k2 v2 =>
              simp [Json.beqFields, Json.beq_iff v1 v2,
                Json.beqFields_iff as bs, Prod.ext_iff, and_assoc]

end

instance : DecidableEq Json := fun a b =>
  decidable_of_iff (Json.beq a b = true) (Json.beq_iff a b)

/-- Python truthiness (`if code:`) for the values of `Json`. -/
def Json.truthy : Json → Bool
  | .null => false
  | .bool b => b
  | .num n => n != 0
  | .str s => s != ""
  | .arr items => !items.isEmpty
  | .obj fields => !fields.isEmpty

/-- Python `obj.get(key)` on a parsed-JSON dict: the value stored under `key`,
or `null` (Python `None`) if the key is missing. -/
def Json.getKey : Json → String → Json
  | .obj fields, key =>
      match fields.find? (fun p => p.1 == key) with
      | some p => p.2
      | none => .null
  | _, _ => .null

/-- Python `key in obj` for a parsed-JSON dict. -/
def Json.hasKey : Json → String → Bool
  | .obj fields, key => fields.any (fun p => p.1 == key)
  | _, _ => false

/-- A product record, i.e. the Python dict
`{'code': ..., 'name': ..., 'image': ...}` built by both extractors. -/
structure Record where
  code : Json
  name : Json
  image : Json
deriving Repr, DecidableEq

/-- Python `dict` assignment `db[k] = v` on an insertion-ordered
association list: if `k` is already a key its value is updated in place
(keeping its position), otherwise the pair is appended at the end. -/
def dictInsert {κ : Type} [DecidableEq κ] (db : List (κ × Record)) (k : κ)
    (v : Record) : List (κ × Record) :=
  if db.any (fun p => decide (p.1 = k)) then
    db.map (fun p => if p.1 = k then (k, v) else p)
  else
    db ++ [(k, v)]

/-- An `<img>` element nested in an anchor: its optional `src` and `alt`
attributes (`img_tag.get` returns `None` for a missing attribute). -/
structure Img where
  src : Option String
  alt : Option String
deriving Repr, DecidableEq

/-- An `<a href=...>` element: its `href` attribute and the first nested
`<img>` element if any (`a_tag.find('img')`). -/
structure Anchor where
  href : String
  img : Option Img
deriving Repr, DecidableEq

/-- A parsed HTML document: anchors with an `href` in document order, and
the `script.string` contents (`none` when the script element has no
single string child). -/
structure Soup where
  anchors : List Anchor
  scripts : List (Option String)
deriving Repr, DecidableEq

/-- If `pat` is a prefix of `s`, consume it and return the remainder. -/
def matchConsume : List Char → List Char → Option (List Char)
  | [], s => some s
  | _ :: _, [] => none
  | p :: ps, c :: cs => if p = c then matchConsume ps cs else none

/-- Fueled scan implementing Python `s.split(sep)` for a non-empty
separator `p0 :: ps`: leftmost, non-overlapping matches, scanning
resuming after each match.  Each step consumes at least one character,
so fuel `s.length` suffices. -/
def pySplitFuel (p0 : Char) (ps : List Char) : Nat → List Char → List (List Char)
  | _, [] => [[]]
  | 0, s => [s]
  | fuel + 1, c :: rest =>
      match matchConsume (p0 :: ps) (c :: rest) with
      | some rem => [] :: pySplitFuel p0 ps fuel rem
      | none =>
          match pySplitFuel p0 ps fuel rest with
          | [] => [[c]]
          | part :: parts => (c :: part) :: parts

/-- Python `s.split(pat)` for a non-empty pattern (the patterns used in
the program are all non-empty literals). -/
def pySplit (pat s : List Char) : List (List Char) :=
  match pat with
  | [] => [s]
  | p0 :: ps => pySplitFuel p0 ps s.length s

/-- Python `s.find(pat)`: code-point index of the first occurrence of a
non-empty `pat`, or `-1`.  The index is the length of the text before
the first occurrence, i.e. of the first piece of `s.split(pat)`. -/
def pyFind (s pat : List Char) : Int :=
  match pySplit pat s with
  | first :: _ :: _ => (first.length : Int)
  | _ => -1

/-- Python `pat in s` for a non-empty pattern. -/
def pyContains (s pat : List Char) : Bool :=
  (pySplit pat s).length > 1

/-- Python `s.rfind(ch)` for a single character: index of the last
occurrence, or `-1`. -/
def pyRfindChar : List Char → Char → Int
  | [], _ => -1
  | c :: rest, ch =>
      let r := pyRfindChar rest ch
      if r ≥ 0 then r + 1
      else if c = ch then 0 else -1

/-- Normalize a Python slice endpoint for a sequence of length `n`:
negative indices count from the end, and both ends are clamped. -/
def pySliceNorm (n : Nat) (k : Int) : Nat :=
  if k < 0 then ((n : Int) + k).toNat else min k.toNat n

/-- Python slicing `s[i:j]`. -/
def pySlice (s : List Char) (i j : Int) : List Char :=
  let a := pySliceNorm s.length i
  let b := pySliceNorm s.length j
  (s.drop a).take (b - a)

/-- Python `s.replace(pat, repl)` for a non-empty pattern: split on the
pattern and re-join with the replacement. -/
def pyReplace (s pat repl : List Char) : List Char :=
  List.intercalate repl (pySplit pat s)

/-- Lift Python None-or-string into `Json`. -/
def jsonOfOpt : Option String → Json
  | none => .null
  | some s => .str s

/-- The identifier the DOM extractor reads off an anchor (lines 86–90):
when `'/Product/' in href` (equivalently, the split has at least two
pieces), `href.split('/Product/')[1]`. -/
def domCode (a : Anchor) : Option String :=
  match pySplit "/Product/".toList a.href.toList with
  | _ :: c :: _ => some c.asString
  | _ => none

/-- The record the DOM extractor builds from one matching anchor
(lines 92–98): image `src` of the nested image or None, name the `alt`
of the nested image (None when that attribute is missing) or the string
`"Unknown Product"` when there is no nested image at all. -/
def domRecord (code : String) (a : Anchor) : Record where
  code := .str code
  name :=
    match a.img with
    | some img => jsonOfOpt img.alt
    | none => .str "Unknown Product"
  image :=
    match a.img with
    | some img => jsonOfOpt img.src
    | none => .null

/-- The DOM extractor (lines 82–98 of `url.py`): fold over the anchors in
document order, keying records by the extracted code. -/
def htmlProducts (anchors : List Anchor) : List (String × Record) :=
  anchors.foldl
    (fun db a =>
      match domCode a with
      | some code => dictInsert db code (domRecord code a)
      | none => db)
    []

mutual

/-- The function `search_for_products` (lines 35–51): walk the decoded JSON value; for
every dict whose `__typename` equals `'Product'` and whose `code` is
truthy, store the record under `code`; then recurse into all values. -/
def searchProducts : List (Json × Record) → Json → List (Json × Record)
  | db, .obj fields =>
      let j := Json.obj fields
      let db1 :=
        if j.hasKey "__typename" ∧ j.getKey "__typename" = .str "Product" then
          let code := j.getKey "code"
          let name := j.getKey "name"
          let img := j.getKey "representationImage"
          if code.truthy then dictInsert db code ⟨code, name, img⟩ else db
        else db
      searchFields db1 fields
  | db, .arr items => searchList db items
  | db, _ => db

/-- Recurse over the values of a dict (`for k, v in obj.items()`). -/
def searchFields : List (Json × Record) → List (String × Json) → List (Json × Record)
  | db, [] => db
  | db, (_, v) :: rest => searchFields (searchProducts db v) rest

/-- Recurse over the items of a list (`for item in obj`). -/
def searchList : List (Json × Record) → List Json → List (Json × Record)
  | db, [] => db
  | db, v :: rest => searchList (searchProducts db v) rest

end

/-- The script filter at line 16:
`s.string and 'ApolloSSRDataTransport' in s.string`. -/
def isApolloScript : Option String → Bool
  | none => false
  | some c => c != "" && pyContains c.toList "ApolloSSRDataTransport".toList

/-- Lines 22–30: recover the JSON payload text from one script body:
find `.push(`, slice from just after it to the last `)`, and replace
every `undefined` with `null`.  Returns `none` when `.push(` is absent
(the `continue` at line 23). -/
def recoveredPayload (content : String) : Option String :=
  let cs := content.toList
  let start_idx := pyFind cs ".push(".toList
  if start_idx = -1 then none
  else
    let start_json := start_idx + 6
    let end_json := pyRfindChar cs ')'
    let json_str := pySlice cs start_json end_json
    some (pyReplace json_str "undefined".toList "null".toList).asString

/-- The body of the per-script loop (lines 18–54): a missing `.push(`
or a payload `loads` rejects leaves the accumulated dict untouched
(`continue` / the swallowed exception). -/
def processScript (loads : String → Option Json)
    (db : List (Json × Record)) (content : String) : List (Json × Record) :=
  match (recoveredPayload content).bind loads with
  | none => db
  | some data => searchProducts db data

/-- The function `parse_apollo_data` (lines 8–56), with `json.loads` abstracted as the
parameter `loads` (`none` models a raised `JSONDecodeError`). -/
def parse_apollo_data (loads : String → Option Json)
    (scripts : List (Option String)) : List (Json × Record) :=
  (scripts.filterMap (fun s => if isApolloScript s then s else none)).foldl
    (processScript loads) []

/-- Exceptions the fetch-and-parse prefix of `extract_product_urls` may
raise: `requests.exceptions.RequestException` or any other `Exception`,
each carrying its display text. -/
inductive PyErr where
  | requestException (msg : String)
  | otherException (msg : String)
deriving Repr, DecidableEq

/-- The observable outcome of `extract_product_urls`: the returned list
and the `st.error` messages shown to the user. -/
structure ExtractOutcome where
  products : List Record
  errors : List String
deriving Repr, DecidableEq

/-- The user-visible messages of the two `except` branches
(lines 122–127). -/
def errMsg : PyErr → String
  | .requestException m => "Error fetching URL: " ++ m
  | .otherException m => "An error occurred: " ++ m

/-- The function `extract_product_urls` (lines 58–127), with the network fetch plus
HTML parsing abstracted as `fetch` and `json.loads` as `loads`.  When the
fetch succeeds, both extractors run and the merge at lines 114–120
returns the Apollo values when that dict is non-empty, else the DOM
values. -/
def extract_product_urls (loads : String → Option Json)
    (fetch : String → Except PyErr Soup) (url : String) : ExtractOutcome :=
  match fetch url with
  | .error e => { products := [], errors := [errMsg e] }
  | .ok soup =>
      let apollo_products := parse_apollo_data loads soup.scripts
      let html_products := htmlProducts soup.anchors
      if !apollo_products.isEmpty then
        { products := apollo_products.map Prod.snd, errors := [] }
      else
        { products := html_products.map Prod.snd, errors := [] }

/-- Button directions passed to `set_page_rel`. -/
inductive PageDir where
  | prev
  | next
deriving Repr, DecidableEq

/-- The page-counter update computed by `set_page_rel` (lines 291–299):
`prev` decrements only when the counter exceeds 1, `next` increments. -/
def set_page_rel (current_page : Int) : PageDir → Int
  | .prev => if current_page > 1 then current_page - 1 else current_page
  | .next => current_page + 1

/-- The session events that set the page counter: a submitted search
(line 205 resets it to 1) or a pagination button callback. -/
inductive PageEvent where
  | search
  | page (d : PageDir)

/-- One step of the page counter under a session event. -/
def stepPage (current_page : Int) : PageEvent → Int
  | .search => 1
  | .page d => set_page_rel current_page d

/-- Drop a leading run of decimal digits. -/
def dropDigits : List Char → List Char
  | [] => []
  | c :: rest => if c.isDigit then dropDigits rest else c :: rest

/-- The character pattern `page=`. -/
def pagePat : List Char := ['p', 'a', 'g', 'e', '=']

/-- Greedy match of `page=` followed by at least one digit (the regex
fragment `page=\d+`, with the digit run taken maximally); returns the
text after the match on success. -/
def pageMatch (s : List Char) : Option (List Char) :=
  match matchConsume pagePat s with
  | none => none
  | some rest =>
      match rest with
      | [] => none
      | d :: _ => if d.isDigit then some (dropDigits rest) else none

/-- Fueled scan implementing `re.sub(r'[&?]page=\d+', '', s)`: at each
position a `&` or `?` followed by `page=` and a maximal non-empty digit
run is deleted, and scanning resumes after the deleted match.  Each step
consumes at least one character, so fuel `s.length` suffices. -/
def stripFuel : Nat → List Char → List Char
  | _, [] => []
  | 0, s => s
  | fuel + 1, c :: rest =>
      if c = '&' ∨ c = '?' then
        match pageMatch rest with
        | some rem => stripFuel fuel rem
        | none => c :: stripFuel fuel rest
      else c :: stripFuel fuel rest

/-- The substitution re.sub removing every match of [&?]page=digits (line 303). -/
def stripPageParam (s : List Char) : List Char := stripFuel s.length s

/-- The target URL built by `set_page_rel` on an actual page change
(lines 301–305): strip prior page parameters from the stored URL, then
append `page=` and the new counter after `&` if the cleaned URL contains
`?`, else after `?`. -/
def set_page_target (last_url : String) (page : Int) : String :=
  let clean := stripPageParam last_url.toList
  let sep := if clean.contains '?' then "&" else "?"
  clean.asString ++ sep ++ "page=" ++ toString page

/-- Split a character list at every occurrence of one character. -/
def splitChar (ch : Char) : List Char → List (List Char)
  | [] => [[]]
  | c :: rest =>
      if c = ch then [] :: splitChar ch rest
      else
        match splitChar ch rest with
        | [] => [[c]]
        | part :: parts => (c :: part) :: parts

/-- Everything after the first occurrence of a character, if any. -/
def afterFirst (ch : Char) : List Char → Option (List Char)
  | [] => none
  | c :: rest => if c = ch then some rest else afterFirst ch rest

/-- Spec-side reading of a URL used by the navigation claim: its query
parameters, i.e. the `&`-separated pieces after the first `?` (empty
when the URL has no `?`). -/
def queryParams (url : String) : List String :=
  match afterFirst '?' url.toList with
  | none => []
  | some q => (splitChar '&' q).map List.asString

/-- Insertion of a key into an ordered key list, as Python dict
assignment affects the key order: no change when present, appended when
new. -/
def insKey (ks : List String) (c : String) : List String :=
  if c ∈ ks then ks else ks ++ [c]

/-- First-occurrence deduplication: the order Python dict keys end up in
after a sequence of assignments. -/
def firstDedup : List String → List String
  | [] => []
  | c :: rest => c :: firstDedup (rest.filter (fun x => x != c))
termination_by l => l.length
decreasing_by
  simp only [List.length_cons]
  exact Nat.lt_succ_of_le (List.length_filter_le _ _)

/-- The fold step of the DOM extractor. -/
def domStep (db : List (String × Record)) (a : Anchor) : List (String × Record) :=
  match domCode a with
  | some code => dictInsert db code (domRecord code a)
  | none => db

/-- Key discipline of the Apollo dict: every stored record's `code` field
equals its key, and every key is truthy. -/
def apolloInv (db : List (Json × Record)) : Prop :=
  ∀ p ∈ db, p.2.code = p.1 ∧ p.1.truthy = true

/-- Whether `pat` occurs as a contiguous subsequence of `s`. -/
def containsSeq (pat : List Char) : List Char → Bool
  | [] => (matchConsume pat []).isSome
  | c :: rest => (matchConsume pat (c :: rest)).isSome || containsSeq pat rest

/-! ## Concrete fixtures used by the witnesses -/

/-- A decoder that rejects every payload (a payload that always fails
JSON parsing). -/
def loadsNone : String → Option Json := fun _ => none

/-- A decoder recognizing one fixed payload that decodes to a single
product object. -/
def loadsDemo : String → Option Json := fun s =>
  if s = "DEMO" then
    some (.obj [("__typename", .str "Product"), ("code", .str "P1"),
      ("name", .str "N1")])
  else none

/-- A fixed demo page: one Apollo script and two product anchors, one of
whose identifiers (`H1`) is found only by the DOM extractor. -/
def soupDemo : Soup where
  anchors :=
    [⟨"/Product/P1", none⟩, ⟨"/Product/H1", some ⟨some "h1.jpg", some "H"⟩⟩]
  scripts := [some "ApolloSSRDataTransport.push(DEMO)"]

/-- A fetch stub returning the demo page for every URL. -/
def fetchDemo : String → Except PyErr Soup := fun _ => .ok soupDemo

/-- A demo page with no scripts, so the Apollo extractor yields nothing. -/
def soupHtmlOnly : Soup where
  anchors := [⟨"/Product/H1", some ⟨some "h1.jpg", some "H"⟩⟩]
  scripts := []

/-- A fetch stub returning the script-free page. -/
def fetchHtmlOnly : String → Except PyErr Soup := fun _ => .ok soupHtmlOnly

/-- A fetch stub that always raises a request exception. -/
def fetchFail : String → Except PyErr Soup := fun _ =>
  .error (.requestException "connection refused")

/-- First occurrence of identifier `A1`, carrying image `img1`. -/
def anchorA1First : Anchor := ⟨"/Product/A1", some ⟨some "img1", some "First"⟩⟩

/-- An anchor with identifier `A2` and no nested image. -/
def anchorA2 : Anchor := ⟨"/Product/A2", none⟩

/-- A later duplicate of identifier `A1`, carrying image `img2`. -/
def anchorA1Last : Anchor := ⟨"/Product/A1", some ⟨some "img2", some "Third"⟩⟩

/-- An anchor whose nested image has a `src` but no `alt` attribute. -/
def anchorNoAlt : Anchor := ⟨"/Product/X", some ⟨some "thumb.jpg", none⟩⟩

/-- An anchor with no nested image at all. -/
def anchorNoImg : Anchor := ⟨"/Product/Y", none⟩


/-! ## Association-list (Python dict) lemmas -/

theorem dictInsert_forall {κ : Type} [DecidableEq κ]
    {P : κ × Record → Prop} {db : List (κ × Record)} {k : κ} {v : Record}
    (hdb : ∀ p ∈ db, P p) (hkv : P (k, v)) :
    ∀ p ∈ dictInsert db k v, P p := by
  intro p hp
  unfold dictInsert at hp
  split at hp
  · rcases List.mem_map.mp hp with ⟨q, hq, hq2⟩
    by_cases hqk : q.1 = k
    · simp [hqk] at hq2
      exact hq2 ▸ hkv
    · simp [hqk] at hq2
      exact hq2 ▸ hdb q hq
  · rcases List.mem_append.mp hp with h | h
    · exact hdb p h
    · simp at h
      exact h ▸ hkv

theorem dictInsert_keys_of_mem {κ : Type} [DecidableEq κ]
    {db : List (κ × Record)} {k : κ} (v : Record)
    (h : k ∈ db.map Prod.fst) :
    (dictInsert db k v).map Prod.fst = db.map Prod.fst := by
  have hany : db.any (fun p => decide (p.1 = k)) = true := by
    rcases List.mem_map.mp h with ⟨q, hq, hq1⟩
    exact List.any_eq_true.mpr ⟨q, hq, by simp [hq1]⟩
  unfold dictInsert
  rw [if_pos hany, List.map_map]
  apply List.map_congr_left
  intro q _
  by_cases hqk : q.1 = k <;> simp [hqk]

theorem dictInsert_keys_of_not_mem {κ : Type} [DecidableEq κ]
    {db : List (κ × Record)} {k : κ} (v : Record)
    (h : k ∉ db.map Prod.fst) :
    (dictInsert db k v).map Prod.fst = db.map Prod.fst ++ [k] := by
  have hany : db.any (fun p => decide (p.1 = k)) = false := by
    rw [List.any_eq_false]
    intro q hq
    simp only [decide_eq_true_eq]
    intro hqk
    exact h (List.mem_map.mpr ⟨q, hq, hqk⟩)
  unfold dictInsert
  rw [if_neg (by simp [hany]), List.map_append]
  rfl

theorem firstDedup_nil : firstDedup [] = [] := by
  simp [firstDedup]

theorem firstDedup_cons (c : String) (rest : List String) :
    firstDedup (c :: rest) = c :: firstDedup (rest.filter (fun x => x != c)) := by
  simp [firstDedup]

theorem firstDedup_sub : ∀ l : List String, ∀ x, x ∈ firstDedup l → x ∈ l
  | [] => by intro x hx; simp [firstDedup_nil] at hx
  | c :: rest => by
      intro x hx
      rw [firstDedup_cons] at hx
      rcases List.mem_cons.mp hx with hx | hx
      · simp [hx]
      · have h1 := firstDedup_sub (rest.filter (fun x => x != c)) x hx
        have h2 := List.mem_of_mem_filter h1
        simp [h2]
termination_by l => l.length
decreasing_by
  simp only [List.length_cons]
  exact Nat.lt_succ_of_le (List.length_filter_le _ _)

theorem firstDedup_nodup : ∀ l : List String, (firstDedup l).Nodup
  | [] => by simp [firstDedup_nil]
  | c :: rest => by
      rw [firstDedup_cons]
      refine List.nodup_cons.mpr ⟨?_, firstDedup_nodup (rest.filter (fun x => x != c))⟩
      intro hc
      have := firstDedup_sub _ c hc
      simp at this
termination_by l => l.length
decreasing_by
  simp only [List.length_cons]
  exact Nat.lt_succ_of_le (List.length_filter_le _ _)

theorem foldl_insKey_eq (codes : List String) :
    ∀ acc : List String,
      codes.foldl insKey acc =
        acc ++ firstDedup (codes.filter (fun c => !acc.contains c)) := by
  induction codes with
  | nil => intro acc; simp [firstDedup_nil]
  | cons c cs ih =>
    intro acc
    by_cases hc : c ∈ acc
    · have h1 : insKey acc c = acc := by simp [insKey, hc]
      have h2 : (c :: cs).filter (fun x => !acc.contains x) =
          cs.filter (fun x => !acc.contains x) := by
        simp [List.filter_cons, hc]
      rw [List.foldl_cons, h1, ih acc, h2]
    · have h1 : insKey acc c = acc ++ [c] := by simp [insKey, hc]
      have h2 : (c :: cs).filter (fun x => !acc.contains x) =
          c :: cs.filter (fun x => !acc.contains x) := by
        simp [List.filter_cons, hc]
      rw [List.foldl_cons, h1, ih (acc ++ [c]), h2, firstDedup_cons]
      have h3 : cs.filter (fun x => !(acc ++ [c]).contains x) =
          (cs.filter (fun x => !acc.contains x)).filter (fun x => x != c) := by
        rw [List.filter_filter]
        apply List.filter_congr
        intro x _
        by_cases hxc : x = c <;> by_cases hxa : x ∈ acc <;>
          simp [hxc, hxa]
      rw [h3]
      simp

/-! ## DOM extractor lemmas -/

theorem htmlProducts_eq_foldl (anchors : List Anchor) :
    htmlProducts anchors = anchors.foldl domStep [] := by
  rfl

theorem domStep_forall {P : String × Record → Prop}
    {db : List (String × Record)} {a : Anchor}
    (hdb : ∀ p ∈ db, P p)
    (ha : ∀ code, domCode a = some code → P (code, domRecord code a)) :
    ∀ p ∈ domStep db a, P p := by
  unfold domStep
  cases h : domCode a with
  | none => exact hdb
  | some code => exact dictInsert_forall hdb (ha code h)

theorem foldl_domStep_forall {P : String × Record → Prop} :
    ∀ (anchors : List Anchor) (db : List (String × Record)),
      (∀ p ∈ db, P p) →
      (∀ a ∈ anchors, ∀ code, domCode a = some code →
        P (code, domRecord code a)) →
      ∀ p ∈ anchors.foldl domStep db, P p := by
  intro anchors
  induction anchors with
  | nil => intro db hdb _; exact hdb
  | cons a rest ih =>
    intro db hdb hanchors
    rw [List.foldl_cons]
    exact ih (domStep db a)
      (domStep_forall hdb (fun code hc => hanchors a (by simp) code hc))
      (fun a2 ha2 code hc => hanchors a2 (by simp [ha2]) code hc)

theorem htmlProducts_code_eq_key (anchors : List Anchor) :
    ∀ p ∈ htmlProducts anchors, p.2.code = .str p.1 := by
  rw [htmlProducts_eq_foldl]
  exact foldl_domStep_forall anchors [] (by simp)
    (fun a _ code _ => by simp [domRecord])

theorem htmlProducts_provenance (anchors : List Anchor) :
    ∀ p ∈ htmlProducts anchors, ∃ a ∈ anchors, ∃ code,
      domCode a = some code ∧ p = (code, domRecord code a) := by
  rw [htmlProducts_eq_foldl]
  exact foldl_domStep_forall anchors [] (by simp)
    (fun a ha code hc => ⟨a, ha, code, hc, rfl⟩)

theorem foldl_domStep_keys :
    ∀ (anchors : List Anchor) (db : List (String × Record)),
      (anchors.foldl domStep db).map Prod.fst =
        (anchors.filterMap domCode).foldl insKey (db.map Prod.fst) := by
  intro anchors
  induction anchors with
  | nil => intro db; simp
  | cons a rest ih =>
    intro db
    rw [List.foldl_cons]
    cases h : domCode a with
    | none =>
      rw [List.filterMap_cons_none h]
      have hstep : domStep db a = db := by unfold domStep; rw [h]
      rw [hstep, ih db]
    | some code =>
      rw [List.filterMap_cons_some h, List.foldl_cons, ih (domStep db a)]
      congr 1
      unfold domStep
      rw [h]
      unfold insKey
      by_cases hmem : code ∈ db.map Prod.fst
      · rw [if_pos hmem]
        exact dictInsert_keys_of_mem _ hmem
      · rw [if_neg hmem]
        exact dictInsert_keys_of_not_mem _ hmem

theorem htmlProducts_keys (anchors : List Anchor) :
    (htmlProducts anchors).map Prod.fst =
      firstDedup (anchors.filterMap domCode) := by
  rw [htmlProducts_eq_foldl, foldl_domStep_keys]
  have := foldl_insKey_eq (anchors.filterMap domCode) []
  simpa using this

theorem htmlProducts_keys_nodup (anchors : List Anchor) :
    ((htmlProducts anchors).map Prod.fst).Nodup := by
  rw [htmlProducts_keys]
  exact firstDedup_nodup _

/-! ## Embedded-state (Apollo) extractor lemmas -/

mutual

theorem searchProducts_inv : ∀ (db : List (Json × Record)) (j : Json),
    apolloInv db → apolloInv (searchProducts db j)
  | db, .null => fun hdb => hdb
  | db, .bool _ => fun hdb => hdb
  | db, .num _ => fun hdb => hdb
  | db, .str _ => fun hdb => hdb
  | db, .arr items => fun hdb => searchList_inv db items hdb
  | db, .obj fields => fun hdb => by
      simp only [searchProducts]
      apply searchFields_inv
      split
      · split
        next h2 => exact dictInsert_forall hdb ⟨rfl, h2⟩
        next h2 => exact hdb
      · exact hdb

theorem searchFields_inv : ∀ (db : List (Json × Record))
    (fs : List (String × Json)), apolloInv db → apolloInv (searchFields db fs)
  | db, [] => fun hdb => hdb
  | db, (_, v) :: rest => fun hdb =>
      searchFields_inv (searchProducts db v) rest (searchProducts_inv db v hdb)

theorem searchList_inv : ∀ (db : List (Json × Record)) (js : List Json),
    apolloInv db → apolloInv (searchList db js)
  | db, [] => fun hdb => hdb
  | db, v :: rest => fun hdb =>
      searchList_inv (searchProducts db v) rest (searchProducts_inv db v hdb)

end

theorem processScript_inv (loads : String → Option Json)
    (db : List (Json × Record)) (content : String) (h : apolloInv db) :
    apolloInv (processScript loads db content) := by
  unfold processScript
  cases (recoveredPayload content).bind loads with
  | none => exact h
  | some data => exact searchProducts_inv db data h

theorem foldl_processScript_inv (loads : String → Option Json) :
    ∀ (contents : List String) (db : List (Json × Record)),
      apolloInv db → apolloInv (contents.foldl (processScript loads) db) := by
  intro contents
  induction contents with
  | nil => intro db h; exact h
  | cons c rest ih =>
    intro db h
    rw [List.foldl_cons]
    exact ih _ (processScript_inv loads db c h)

theorem parse_apollo_inv (loads : String → Option Json)
    (scripts : List (Option String)) :
    apolloInv (parse_apollo_data loads scripts) := by
  unfold parse_apollo_data
  exact foldl_processScript_inv loads _ [] (by intro p hp; simp at hp)

theorem processScript_skip (loads : String → Option Json)
    (db : List (Json × Record)) (content payload : String)
    (hpay : recoveredPayload content = some payload)
    (hfail : loads payload = none) :
    processScript loads db content = db := by
  unfold processScript
  rw [hpay, Option.some_bind, hfail]

theorem parse_apollo_skip_mid (loads : String → Option Json)
    (s1 s2 : List (Option String)) (content payload : String)
    (hsel : isApolloScript (some content) = true)
    (hpay : recoveredPayload content = some payload)
    (hfail : loads payload = none) :
    parse_apollo_data loads (s1 ++ some content :: s2) =
      parse_apollo_data loads (s1 ++ s2) := by
  unfold parse_apollo_data
  have hcons :
      List.filterMap (fun s => if isApolloScript s then s else none)
        (some content :: s2) =
      content ::
        List.filterMap (fun s => if isApolloScript s then s else none) s2 := by
    rw [List.filterMap_cons]
    simp [hsel]
  rw [List.filterMap_append, List.filterMap_append, hcons,
    List.foldl_append, List.foldl_append, List.foldl_cons,
    processScript_skip loads _ content payload hpay hfail]

/-! ## Pagination lemmas -/

theorem foldl_stepPage_ge_one :
    ∀ (evs : List PageEvent) (p : Int), 1 ≤ p → 1 ≤ evs.foldl stepPage p := by
  intro evs
  induction evs with
  | nil => intro p hp; exact hp
  | cons e rest ih =>
    intro p hp
    rw [List.foldl_cons]
    apply ih
    cases e with
    | search => simp [stepPage]
    | page d =>
      cases d with
      | prev => simp only [stepPage, set_page_rel]; split <;> omega
      | next => simp only [stepPage, set_page_rel]; omega

/-! ## Merge-level lemmas -/

theorem extract_ok_apollo_nonempty (loads : String → Option Json)
    (fetch : String → Except PyErr Soup) (url : String) (soup : Soup)
    (hfetch : fetch url = .ok soup)
    (hne : parse_apollo_data loads soup.scripts ≠ []) :
    extract_product_urls loads fetch url =
      ⟨(parse_apollo_data loads soup.scripts).map Prod.snd, []⟩ := by
  unfold extract_product_urls
  rw [hfetch]
  have hie : (parse_apollo_data loads soup.scripts).isEmpty = false := by
    cases h : parse_apollo_data loads soup.scripts with
    | nil => exact absurd h hne
    | cons a l => rfl
  simp [hie]

theorem extract_ok_apollo_empty (loads : String → Option Json)
    (fetch : String → Except PyErr Soup) (url : String) (soup : Soup)
    (hfetch : fetch url = .ok soup)
    (hemp : parse_apollo_data loads soup.scripts = []) :
    extract_product_urls loads fetch url =
      ⟨(htmlProducts soup.anchors).map Prod.snd, []⟩ := by
  unfold extract_product_urls
  rw [hfetch]
  simp [hemp]

theorem extract_error (loads : String → Option Json)
    (fetch : String → Except PyErr Soup) (url : String) (e : PyErr)
    (h : fetch url = .error e) :
    extract_product_urls loads fetch url = ⟨[], [errMsg e]⟩ := by
  unfold extract_product_urls
  rw [h]

/-! ## Lemmas about the page-parameter rewrite (`re.sub` model) -/

theorem toList_append (s t : String) :
    (s ++ t).toList = s.toList ++ t.toList := by
  cases s
  cases t
  rfl

theorem matchConsume_length_le :
    ∀ (pat s rem : List Char), matchConsume pat s = some rem →
      rem.length ≤ s.length
  | [], s, rem => by intro h; simp [matchConsume] at h; simp [h]
  | p :: ps, [], rem => by intro h; simp [matchConsume] at h
  | p :: ps, c :: cs, rem => by
      intro h
      simp only [matchConsume] at h
      split at h
      · have := matchConsume_length_le ps cs rem h
        simp
        omega
      · exact absurd h (by simp)

theorem dropDigits_length_le : ∀ s : List Char, (dropDigits s).length ≤ s.length
  | [] => by simp [dropDigits]
  | c :: rest => by
      simp only [dropDigits]
      split
      · have := dropDigits_length_le rest
        simp
        omega
      · simp

theorem pageMatch_length_le (s rem : List Char) (h : pageMatch s = some rem) :
    rem.length ≤ s.length := by
  unfold pageMatch at h
  split at h
  next => exact Option.noConfusion h
  next rest heq =>
    split at h
    next => exact Option.noConfusion h
    next d tail =>
      split at h
      · have h2 := Option.some.inj h
        have h3 := dropDigits_length_le (d :: tail)
        have h4 := matchConsume_length_le pagePat s (d :: tail) heq
        have h5 : rem.length = (dropDigits (d :: tail)).length := by rw [← h2]
        omega
      · exact Option.noConfusion h

theorem stripFuel_congr :
    ∀ (f g : Nat) (s : List Char), s.length ≤ f → s.length ≤ g →
      stripFuel f s = stripFuel g s := by
  intro f
  induction f with
  | zero =>
    intro g s hf _
    have : s = [] := by
      cases s with
      | nil => rfl
      | cons c r => simp at hf
    subst this
    cases g <;> rfl
  | succ f ih =>
    intro g s hf hg
    cases s with
    | nil => cases g <;> rfl
    | cons c rest =>
      cases g with
      | zero => simp at hg
      | succ g =>
        simp only [stripFuel]
        split
        · cases hpm : pageMatch rest with
          | none =>
            show c :: stripFuel f rest = c :: stripFuel g rest
            rw [ih g rest (by simp at hf; omega) (by simp at hg; omega)]
          | some rem =>
            have hrl := pageMatch_length_le rest rem hpm
            show stripFuel f rem = stripFuel g rem
            exact ih g rem (by simp at hf; omega) (by simp at hg; omega)
        · show c :: stripFuel f rest = c :: stripFuel g rest
          rw [ih g rest (by simp at hf; omega) (by simp at hg; omega)]

theorem stripPageParam_nil : stripPageParam [] = [] := rfl

theorem stripPageParam_cons (c : Char) (rest : List Char) :
    stripPageParam (c :: rest) =
      if c = '&' ∨ c = '?' then
        match pageMatch rest with
        | some rem => stripPageParam rem
        | none => c :: stripPageParam rest
      else c :: stripPageParam rest := by
  unfold stripPageParam
  simp only [List.length_cons, stripFuel]
  split
  · cases hpm : pageMatch rest with
    | none =>
      show c :: stripFuel rest.length rest = c :: stripFuel rest.length rest
      rfl
    | some rem =>
      have := pageMatch_length_le rest rem hpm
      show stripFuel rest.length rem = stripFuel rem.length rem
      exact stripFuel_congr rest.length rem.length rem (by omega) (by omega)
  · rfl

theorem containsSeq_cons_false {pat : List Char} {c : Char} {rest : List Char}
    (h : containsSeq pat (c :: rest) = false) :
    (matchConsume pat (c :: rest)).isSome = false ∧
      containsSeq pat rest = false := by
  simpa [containsSeq] using h

theorem matchConsume_isSome_false_of {pat s : List Char}
    (h : containsSeq pat s = false) : (matchConsume pat s).isSome = false := by
  cases s with
  | nil => simpa [containsSeq] using h
  | cons c rest => exact (containsSeq_cons_false h).1

theorem pageMatch_none_of_mc {s : List Char}
    (h : matchConsume pagePat s = none) : pageMatch s = none := by
  unfold pageMatch
  rw [h]

theorem stripPageParam_of_not_contains :
    ∀ s : List Char, containsSeq pagePat s = false → stripPageParam s = s := by
  intro s
  induction s with
  | nil => intro _; rfl
  | cons c rest ih =>
    intro h
    obtain ⟨h1, h2⟩ := containsSeq_cons_false h
    rw [stripPageParam_cons]
    have hmc : matchConsume pagePat rest = none := by
      have := matchConsume_isSome_false_of h2
      cases hx : matchConsume pagePat rest with
      | none => rfl
      | some r => rw [hx] at this; simp at this
    split
    · rw [pageMatch_none_of_mc hmc]
      show c :: stripPageParam rest = c :: rest
      rw [ih h2]
    · show c :: stripPageParam rest = c :: rest
      rw [ih h2]

theorem matchConsume_none_append {pat : List Char} (ys : List Char) :
    ∀ s : List Char, matchConsume pat s = none → (∀ c ∈ pat, c ≠ '&') →
      matchConsume pat (s ++ '&' :: ys) = none := by
  induction pat with
  | nil => intro s h _; simp [matchConsume] at h
  | cons p ps ih =>
    intro s h hamp
    cases s with
    | nil =>
      show matchConsume (p :: ps) ('&' :: ys) = none
      have hp : p ≠ '&' := hamp p (by simp)
      simp [matchConsume, hp]
    | cons c cs =>
      simp only [matchConsume] at h
      rw [List.cons_append]
      simp only [matchConsume]
      split at h
      · rw [if_pos (by assumption)]
        exact ih cs h (fun x hx => hamp x (by simp [hx]))
      · rw [if_neg (by assumption)]

theorem matchConsume_append_self :
    ∀ (pat t : List Char), matchConsume pat (pat ++ t) = some t := by
  intro pat
  induction pat with
  | nil => intro t; rfl
  | cons p ps ih => intro t; simp [matchConsume, ih t]

theorem dropDigits_all :
    ∀ ds : List Char, (∀ c ∈ ds, c.isDigit = true) → dropDigits ds = [] := by
  intro ds
  induction ds with
  | nil => intro _; rfl
  | cons d rest ih =>
    intro h
    simp only [dropDigits]
    rw [if_pos (h d (by simp))]
    exact ih (fun c hc => h c (by simp [hc]))

theorem pageMatch_page_digits (ds : List Char) (hne : ds ≠ [])
    (hd : ∀ c ∈ ds, c.isDigit = true) :
    pageMatch (pagePat ++ ds) = some [] := by
  unfold pageMatch
  rw [matchConsume_append_self]
  cases ds with
  | nil => exact absurd rfl hne
  | cons d dtail =>
    show (if d.isDigit = true then some (dropDigits (d :: dtail)) else none) =
      some []
    rw [if_pos (hd d (by simp)), dropDigits_all _ hd]

theorem stripPageParam_amp_page (ds : List Char) (hne : ds ≠ [])
    (hd : ∀ c ∈ ds, c.isDigit = true) :
    stripPageParam ('&' :: (pagePat ++ ds)) = [] := by
  rw [stripPageParam_cons, if_pos (Or.inl rfl), pageMatch_page_digits ds hne hd]
  rfl

theorem stripPageParam_append (pre ys : List Char)
    (hpre : containsSeq pagePat pre = false) :
    stripPageParam (pre ++ '&' :: ys) = pre ++ stripPageParam ('&' :: ys) := by
  induction pre with
  | nil => simp
  | cons c rest ih =>
    obtain ⟨h1, h2⟩ := containsSeq_cons_false hpre
    have hmc : matchConsume pagePat rest = none := by
      have := matchConsume_isSome_false_of h2
      cases hx : matchConsume pagePat rest with
      | none => rfl
      | some r => rw [hx] at this; simp at this
    have hamp : ∀ x ∈ pagePat, x ≠ '&' := by decide
    have hmc2 : matchConsume pagePat (rest ++ '&' :: ys) = none :=
      matchConsume_none_append ys rest hmc hamp
    rw [List.cons_append, stripPageParam_cons]
    split
    · rw [pageMatch_none_of_mc hmc2]
      show c :: stripPageParam (rest ++ '&' :: ys) =
        c :: (rest ++ stripPageParam ('&' :: ys))
      rw [ih h2]
    · show c :: stripPageParam (rest ++ '&' :: ys) =
        c :: (rest ++ stripPageParam ('&' :: ys))
      rw [ih h2]

theorem afterFirst_not_mem {ch : Char} :
    ∀ s : List Char, ch ∉ s → afterFirst ch s = none := by
  intro s
  induction s with
  | nil => intro _; rfl
  | cons c rest ih =>
    intro h
    simp only [afterFirst]
    rw [if_neg (by simp at h; exact fun hc => h.1 hc.symm)]
    exact ih (by simp at h; exact h.2)

theorem afterFirst_append_first {ch : Char} :
    ∀ (pre t : List Char), ch ∉ pre →
      afterFirst ch (pre ++ ch :: t) = some t := by
  intro pre
  induction pre with
  | nil => intro t _; simp [afterFirst]
  | cons c rest ih =>
    intro t h
    rw [List.cons_append]
    simp only [afterFirst]
    rw [if_neg (by simp at h; exact fun hc => h.1 hc.symm)]
    exact ih t (by simp at h; exact h.2)

theorem afterFirst_append_of_mem {ch : Char} :
    ∀ (xs ys : List Char), ch ∈ xs →
      afterFirst ch (xs ++ ys) = (afterFirst ch xs).map (fun t => t ++ ys) := by
  intro xs
  induction xs with
  | nil => intro ys h; simp at h
  | cons c rest ih =>
    intro ys h
    rw [List.cons_append]
    simp only [afterFirst]
    by_cases hc : c = ch
    · rw [if_pos hc, if_pos hc]
      rfl
    · rw [if_neg hc, if_neg hc]
      apply ih
      rcases List.mem_cons.mp h with h | h
      · exact absurd h.symm hc
      · exact h

theorem splitChar_ne_nil (ch : Char) : ∀ s : List Char, splitChar ch s ≠ [] := by
  intro s
  cases s with
  | nil => simp [splitChar]
  | cons c rest =>
    simp only [splitChar]
    split
    · simp
    · split <;> simp

theorem splitChar_append (ch : Char) :
    ∀ xs ys : List Char,
      splitChar ch (xs ++ ch :: ys) = splitChar ch xs ++ splitChar ch ys := by
  intro xs
  induction xs with
  | nil => intro ys; simp [splitChar]
  | cons c rest ih =>
    intro ys
    rw [List.cons_append]
    by_cases hc : c = ch
    · simp only [splitChar, if_pos hc]
      rw [ih ys]
      rfl
    · simp only [splitChar, if_neg hc]
      rw [ih ys]
      obtain ⟨p, parts, hps⟩ : ∃ p parts, splitChar ch rest = p :: parts := by
        cases hx : splitChar ch rest with
        | nil => exact absurd hx (splitChar_ne_nil ch rest)
        | cons p parts => exact ⟨p, parts, rfl⟩
      rw [hps]
      rfl

theorem splitChar_not_mem (ch : Char) :
    ∀ s : List Char, ch ∉ s → splitChar ch s = [s] := by
  intro s
  induction s with
  | nil => intro _; rfl
  | cons c rest ih =>
    intro h
    simp only [splitChar]
    rw [if_neg (by simp at h; exact fun hc => h.1 hc.symm)]
    rw [ih (by simp at h; exact h.2)]

theorem afterFirst_isSome_of_mem {ch : Char} :
    ∀ s : List Char, ch ∈ s → ∃ t, afterFirst ch s = some t := by
  intro s
  induction s with
  | nil => intro h; simp at h
  | cons c rest ih =>
    intro h
    by_cases hc : c = ch
    · exact ⟨rest, by simp [afterFirst, hc]⟩
    · rcases List.mem_cons.mp h with h | h
      · exact absurd h.symm hc
      · obtain ⟨t, ht⟩ := ih h
        exact ⟨t, by simp [afterFirst, hc, ht]⟩

theorem set_page_target_toList (base : String) (page : Int) :
    (set_page_target base page).toList =
      stripPageParam base.toList ++
        ((if (stripPageParam base.toList).contains '?' then ['&'] else ['?']) ++
          ("page=".toList ++ (toString page).toList)) := by
  simp only [set_page_target]
  rw [toList_append, toList_append, toList_append, List.toList_asString]
  by_cases h : (stripPageParam base.toList).contains '?' = true
  · rw [if_pos h, if_pos h]
    simp [List.append_assoc]
  · rw [if_neg h, if_neg h]
    simp [List.append_assoc]

theorem no_amp_in_pageChars (page : Int) (hamp : '&' ∉ (toString page).toList) :
    '&' ∉ ("page=".toList ++ (toString page).toList) := by
  intro h
  rcases List.mem_append.mp h with h | h
  · simp at h
  · exact hamp h

theorem asString_pageChars (page : Int) :
    ("page=".toList ++ (toString page).toList).asString =
      "page=" ++ toString page := by
  rw [← toList_append, String.asString_toList]

/-- Case with no page parameter anywhere in the stored URL: the target
URL keeps all query parameters and appends exactly one `page=` entry. -/
theorem queryParams_target_no_page (base : String) (page : Int)
    (hnc : containsSeq pagePat base.toList = false)
    (hamp : '&' ∉ (toString page).toList) :
    queryParams (set_page_target base page) =
      queryParams base ++ ["page=" ++ toString page] := by
  have hclean : stripPageParam base.toList = base.toList :=
    stripPageParam_of_not_contains base.toList hnc
  have htl := set_page_target_toList base page
  rw [hclean] at htl
  by_cases hmem : '?' ∈ base.toList
  · have hct : base.toList.contains '?' = true := by
      simp
      exact hmem
    rw [if_pos hct] at htl
    obtain ⟨q, hq'⟩ := afterFirst_isSome_of_mem base.toList hmem
    have hqp : queryParams base = (splitChar '&' q).map List.asString := by
      unfold queryParams
      simp only [hq']
    have hafter : afterFirst '?' (set_page_target base page).toList =
        some (q ++ '&' :: ("page=".toList ++ (toString page).toList)) := by
      rw [htl, afterFirst_append_of_mem base.toList _ hmem, hq']
      rfl
    rw [hqp]
    unfold queryParams
    simp only [hafter]
    rw [splitChar_append,
      splitChar_not_mem '&' _ (no_amp_in_pageChars page hamp),
      List.map_append]
    simp only [List.map_cons, List.map_nil, asString_pageChars]
  · have hct : base.toList.contains '?' = false := by
      simp
      exact hmem
    rw [if_neg (by rw [hct]; simp)] at htl
    have hqp : queryParams base = [] := by
      unfold queryParams
      simp only [afterFirst_not_mem base.toList hmem]
    have hafter : afterFirst '?' (set_page_target base page).toList =
        some ("page=".toList ++ (toString page).toList) := by
      rw [htl]
      exact afterFirst_append_first base.toList _ hmem
    rw [hqp, List.nil_append]
    unfold queryParams
    simp only [hafter]
    rw [splitChar_not_mem '&' _ (no_amp_in_pageChars page hamp)]
    simp only [List.map_cons, List.map_nil, asString_pageChars]

/-- Case where the stored URL's only page parameter is its final query
parameter but not its first: the target keeps the other parameters and
replaces the page parameter's value with the new counter. -/
theorem queryParams_target_page_last (base : String) (page : Int)
    (pre mid ds : List Char)
    (hbase : base.toList = pre ++ '?' :: (mid ++ '&' :: (pagePat ++ ds)))
    (hpre : '?' ∉ pre)
    (hnc : containsSeq pagePat (pre ++ '?' :: mid) = false)
    (hne : ds ≠ []) (hd : ∀ c ∈ ds, c.isDigit = true)
    (hamp : '&' ∉ (toString page).toList) :
    queryParams (set_page_target base page) =
      (splitChar '&' mid).map List.asString ++ ["page=" ++ toString page] ∧
    queryParams base =
      (splitChar '&' mid).map List.asString ++ [(pagePat ++ ds).asString] := by
  have hclean : stripPageParam base.toList = pre ++ '?' :: mid := by
    rw [hbase]
    have hassoc : pre ++ '?' :: (mid ++ '&' :: (pagePat ++ ds)) =
        (pre ++ '?' :: mid) ++ '&' :: (pagePat ++ ds) := by
      simp
    rw [hassoc, stripPageParam_append _ _ hnc, stripPageParam_amp_page ds hne hd]
    simp
  have hnoamp_page : '&' ∉ pagePat ++ ds := by
    intro h
    rcases List.mem_append.mp h with h | h
    · simp [pagePat] at h
    · have := hd '&' h
      simp at this
  constructor
  · have htl := set_page_target_toList base page
    rw [hclean] at htl
    have hct : (pre ++ '?' :: mid).contains '?' = true := by simp
    rw [if_pos hct] at htl
    have htl2 : (set_page_target base page).toList =
        pre ++ '?' :: (mid ++ '&' :: ("page=".toList ++ (toString page).toList)) := by
      rw [htl]
      simp
    have hafter : afterFirst '?' (set_page_target base page).toList =
        some (mid ++ '&' :: ("page=".toList ++ (toString page).toList)) := by
      rw [htl2]
      exact afterFirst_append_first pre _ hpre
    unfold queryParams
    simp only [hafter]
    rw [splitChar_append,
      splitChar_not_mem '&' _ (no_amp_in_pageChars page hamp),
      List.map_append]
    simp only [List.map_cons, List.map_nil, asString_pageChars]
  · have hafter : afterFirst '?' base.toList =
        some (mid ++ '&' :: (pagePat ++ ds)) := by
      rw [hbase]
      exact afterFirst_append_first pre _ hpre
    unfold queryParams
    simp only [hafter]
    rw [splitChar_append, splitChar_not_mem '&' _ hnoamp_page,
      List.map_append]
    simp only [List.map_cons, List.map_nil]

set_option maxRecDepth 1000000

/-! ## The claims -/

/-- C1: for every fetched document, if the embedded-state (Apollo)
extractor's mapping is non-empty, `extract_product_urls` returns exactly
the records of that mapping in its traversal order, and any record whose
identifier was found only by the DOM extractor is absent from the
result. -/
theorem C1_apollo_master (loads : String → Option Json)
    (fetch : String → Except PyErr Soup) (url : String) (soup : Soup)
    (hfetch : fetch url = .ok soup)
    (hne : parse_apollo_data loads soup.scripts ≠ []) :
    (extract_product_urls loads fetch url).products =
      (parse_apollo_data loads soup.scripts).map Prod.snd ∧
    ∀ c v, (c, v) ∈ htmlProducts soup.anchors →
      Json.str c ∉ (parse_apollo_data loads soup.scripts).map Prod.fst →
      v ∉ (extract_product_urls loads fetch url).products := by
  have hprod : (extract_product_urls loads fetch url).products =
      (parse_apollo_data loads soup.scripts).map Prod.snd := by
    rw [extract_ok_apollo_nonempty loads fetch url soup hfetch hne]
  refine ⟨hprod, ?_⟩
  intro c v hmem hnotin hvin
  rw [hprod] at hvin
  rcases List.mem_map.mp hvin with ⟨⟨k, v2⟩, hkv, hsnd⟩
  have hinv := parse_apollo_inv loads soup.scripts ⟨k, v2⟩ hkv
  have hhtml := htmlProducts_code_eq_key soup.anchors (c, v) hmem
  apply hnotin
  have hk : k = Json.str c := by
    have h1 : v2.code = k := hinv.1
    have h2 : v2 = v := hsnd
    rw [h2] at h1
    rw [hhtml] at h1
    exact h1.symm
  rw [← hk]
  exact List.mem_map.mpr ⟨(k, v2), hkv, rfl⟩

/-- Witness for C1 on the demo page: the result is exactly the Apollo
mapping's records, and the DOM-only record for `H1` is absent. -/
theorem C1_witness :
    (extract_product_urls loadsDemo fetchDemo "url").products =
      (parse_apollo_data loadsDemo soupDemo.scripts).map Prod.snd ∧
    Record.mk (Json.str "H1") (Json.str "H") (Json.str "h1.jpg") ∉
      (extract_product_urls loadsDemo fetchDemo "url").products :=
  ⟨(C1_apollo_master loadsDemo fetchDemo "url" soupDemo rfl (by decide)).1,
   (C1_apollo_master loadsDemo fetchDemo "url" soupDemo rfl (by decide)).2
     "H1" ⟨Json.str "H1", Json.str "H", Json.str "h1.jpg"⟩
     (by decide) (by decide)⟩

/-- C2: for every fetched document, if the embedded-state mapping is
empty, `extract_product_urls` returns exactly the DOM mapping's records
in the DOM mapping's order. -/
theorem C2_dom_fallback (loads : String → Option Json)
    (fetch : String → Except PyErr Soup) (url : String) (soup : Soup)
    (hfetch : fetch url = .ok soup)
    (hemp : parse_apollo_data loads soup.scripts = []) :
    (extract_product_urls loads fetch url).products =
      (htmlProducts soup.anchors).map Prod.snd := by
  rw [extract_ok_apollo_empty loads fetch url soup hfetch hemp]

/-- Witness for C2 on the script-free page. -/
theorem C2_witness :
    (extract_product_urls loadsNone fetchHtmlOnly "url").products =
      (htmlProducts soupHtmlOnly.anchors).map Prod.snd :=
  C2_dom_fallback loadsNone fetchHtmlOnly "url" soupHtmlOnly rfl (by decide)

/-- C3 counterexample: with anchors `A1`, `A2`, `A1` where the two `A1`
anchors differ, the record stored for `A1` is the one built from the
last occurrence, not the first, refuting that "the record from the first
occurrence of an identifier is the one kept". -/
theorem C3_counterexample :
    htmlProducts [anchorA1First, anchorA2, anchorA1Last] =
      [("A1", domRecord "A1" anchorA1Last), ("A2", domRecord "A2" anchorA2)] ∧
    domRecord "A1" anchorA1Last ≠ domRecord "A1" anchorA1First := by
  decide

/-- C3 (amended): the DOM mapping's keys are the extracted identifiers
in first-occurrence document order (so the `A1`,`A2`,`A1` page yields
exactly the two entries `A1` then `A2`, and later duplicates add no
entry), but the record stored for a duplicated identifier is the one
built from its last occurrence. -/
theorem C3_amended :
    (∀ anchors : List Anchor,
      (htmlProducts anchors).map Prod.fst =
        firstDedup (anchors.filterMap domCode)) ∧
    (htmlProducts [anchorA1First, anchorA2, anchorA1Last]).map Prod.fst =
      ["A1", "A2"] ∧
    htmlProducts [anchorA1First, anchorA2, anchorA1Last] =
      [("A1", domRecord "A1" anchorA1Last), ("A2", domRecord "A2" anchorA2)] :=
  ⟨htmlProducts_keys, by decide, by decide⟩

/-- C4: the pagination counter starts at 1, is reset to 1 by every new
search, the previous-page step never takes a counter that is at least 1
below 1, and hence every reachable counter value is at least 1. -/
theorem C4_page_counter_ge_one :
    (∀ p : Int, stepPage p .search = 1) ∧
    (∀ (p : Int) (d : PageDir), 1 ≤ p → 1 ≤ set_page_rel p d) ∧
    (∀ evs : List PageEvent, 1 ≤ evs.foldl stepPage 1) := by
  refine ⟨fun p => rfl, ?_, fun evs => foldl_stepPage_ge_one evs 1 (le_refl 1)⟩
  intro p d hp
  cases d with
  | prev => simp only [set_page_rel]; split <;> omega
  | next => simp only [set_page_rel]; omega

/-- Witness for C4: pressing previous at page 1 keeps the counter at 1. -/
theorem C4_witness : 1 ≤ set_page_rel 1 PageDir.prev :=
  C4_page_counter_ge_one.2.1 1 PageDir.prev (by norm_num)

/-- C5: for every HTML input, the DOM extractor's output contains no two
records with the same identifier. -/
theorem C5_unique_identifiers (anchors : List Anchor) :
    ((htmlProducts anchors).map (fun p => p.2.code)).Nodup := by
  have h1 : (htmlProducts anchors).map (fun p => p.2.code) =
      (htmlProducts anchors).map (fun p => Json.str p.1) := by
    apply List.map_congr_left
    intro p hp
    exact htmlProducts_code_eq_key anchors p hp
  have h2 : (htmlProducts anchors).map (fun p => Json.str p.1) =
      ((htmlProducts anchors).map Prod.fst).map Json.str := by
    rw [List.map_map]
    rfl
  rw [h1, h2]
  exact List.Nodup.map (fun a b hab => Json.str.inj hab)
    (htmlProducts_keys_nodup anchors)

/-- C6 counterexample: when the stored URL's page parameter is its first
query parameter, navigating to page 3 strips `?page=2`, so the `&q=shoes`
parameter is displaced out of the query string of the target URL — the
target is not a well-formed URL keeping all other query parameters. -/
theorem C6_counterexample :
    set_page_target "https://www.kolonmall.com/search?page=2&q=shoes" 3 =
      "https://www.kolonmall.com/search&q=shoes?page=3" ∧
    "q=shoes" ∈
      queryParams "https://www.kolonmall.com/search?page=2&q=shoes" ∧
    "q=shoes" ∉
      queryParams
        (set_page_target "https://www.kolonmall.com/search?page=2&q=shoes" 3) ∧
    "page=3" ∈
      queryParams
        (set_page_target "https://www.kolonmall.com/search?page=2&q=shoes" 3) := by
  refine ⟨by decide, by decide, by decide, by decide⟩

/-- C6 (amended): navigating to page `n` deletes every `&`-or-`?`
followed by `page=` and digits from the stored URL and appends `page=n`
after `&` when the stripped URL still contains `?`, else after `?`.
When the stored URL has no `page=` occurrence at all, the target's query
parameters are the base's parameters unchanged followed by exactly one
`page=n`; when the page parameter is the final query parameter but not
the first, the target's query parameters are the other parameters
unchanged followed by `page=n`.  (When the page parameter comes first,
the remaining parameters are displaced out of the query string, as the
counterexample shows.) -/
theorem C6_amended (base : String) (page : Int)
    (hamp : '&' ∉ (toString page).toList) :
    (containsSeq pagePat base.toList = false →
      queryParams (set_page_target base page) =
        queryParams base ++ ["page=" ++ toString page]) ∧
    (∀ pre mid ds,
      base.toList = pre ++ '?' :: (mid ++ '&' :: (pagePat ++ ds)) →
      '?' ∉ pre → containsSeq pagePat (pre ++ '?' :: mid) = false →
      ds ≠ [] → (∀ c ∈ ds, c.isDigit = true) →
      queryParams (set_page_target base page) =
        (splitChar '&' mid).map List.asString ++ ["page=" ++ toString page] ∧
      queryParams base =
        (splitChar '&' mid).map List.asString ++ [(pagePat ++ ds).asString]) :=
  ⟨fun hnc => queryParams_target_no_page base page hnc hamp,
   fun pre mid ds hbase hpre hnc hne hd =>
     queryParams_target_page_last base page pre mid ds hbase hpre hnc hne hd
       hamp⟩

/-- Witness for C6 on a URL whose page parameter is last but not first:
navigating to page 4 keeps `a=1` and replaces `page=7` by `page=4`. -/
theorem C6_witness :
    queryParams (set_page_target "https://x.example/L?a=1&page=7" 4) =
      (splitChar '&' "a=1".toList).map List.asString ++
        ["page=" ++ toString (4 : Int)] ∧
    queryParams "https://x.example/L?a=1&page=7" =
      (splitChar '&' "a=1".toList).map List.asString ++
        [(pagePat ++ ['7']).asString] :=
  (C6_amended "https://x.example/L?a=1&page=7" 4 (by decide)).2
    "https://x.example/L".toList "a=1".toList ['7']
    (by decide) (by decide) (by decide) (by decide) (by decide)

/-- C7 counterexample: an anchor whose nested image has no alt text
produces a record whose name is None (`null`), not the default
`"Unknown Product"` — the default is used only when the anchor has no
nested image at all. -/
theorem C7_counterexample :
    htmlProducts [anchorNoAlt] =
      [("X", Record.mk (Json.str "X") Json.null (Json.str "thumb.jpg"))] ∧
    Json.null ≠ Json.str "Unknown Product" := by
  refine ⟨by decide, by decide⟩

/-- C7 (amended): every record in the DOM mapping comes from some anchor
of the page; its display name is the default `"Unknown Product"` exactly
when that anchor has no nested image element, and when an image is
present the name is its alt text (None when the attribute is absent). -/
theorem C7_amended (anchors : List Anchor) (p : String × Record)
    (hp : p ∈ htmlProducts anchors) :
    ∃ a ∈ anchors, ∃ code, domCode a = some code ∧
      p = (code, domRecord code a) ∧
      (a.img = none → p.2.name = Json.str "Unknown Product") ∧
      (∀ i, a.img = some i → p.2.name = jsonOfOpt i.alt) := by
  obtain ⟨a, ha, code, hc, heq⟩ := htmlProducts_provenance anchors p hp
  refine ⟨a, ha, code, hc, heq, ?_, ?_⟩
  · intro himg
    rw [heq]
    simp [domRecord, himg]
  · intro i himg
    rw [heq]
    simp [domRecord, himg]

/-- Witness for C7 on a page with a single image-less anchor. -/
theorem C7_witness :
    ∃ a ∈ [anchorNoImg], ∃ code, domCode a = some code ∧
      (("Y", domRecord "Y" anchorNoImg) : String × Record) =
        (code, domRecord code a) ∧
      (a.img = none →
        (("Y", domRecord "Y" anchorNoImg) : String × Record).2.name =
          Json.str "Unknown Product") ∧
      (∀ i, a.img = some i →
        (("Y", domRecord "Y" anchorNoImg) : String × Record).2.name =
          jsonOfOpt i.alt) :=
  C7_amended [anchorNoImg] ("Y", domRecord "Y" anchorNoImg) (by decide)

/-- C8: a selected script whose recovered payload fails to parse is
skipped silently: it contributes no entries, and the entries collected
from the scripts before and after it are exactly those collected when
the bad script is not present at all. -/
theorem C8_bad_script_skipped (loads : String → Option Json)
    (s1 s2 : List (Option String)) (content payload : String)
    (hsel : isApolloScript (some content) = true)
    (hpay : recoveredPayload content = some payload)
    (hfail : loads payload = none) :
    parse_apollo_data loads (s1 ++ some content :: s2) =
      parse_apollo_data loads (s1 ++ s2) :=
  parse_apollo_skip_mid loads s1 s2 content payload hsel hpay hfail

/-- Witness for C8 with a marker script whose payload every decode
rejects, sitting between two other scripts. -/
theorem C8_witness :
    isApolloScript (some "ApolloSSRDataTransport.push(BAD)") = true ∧
    recoveredPayload "ApolloSSRDataTransport.push(BAD)" = some "BAD" ∧
    loadsNone "BAD" = none ∧
    parse_apollo_data loadsNone
        ([some "x"] ++ some "ApolloSSRDataTransport.push(BAD)" :: [none]) =
      parse_apollo_data loadsNone ([some "x"] ++ [none]) :=
  ⟨by decide, by decide, rfl,
   C8_bad_script_skipped loadsNone [some "x"] [none]
     "ApolloSSRDataTransport.push(BAD)" "BAD" (by decide) (by decide) rfl⟩

/-- C9: when the fetch raises, `extract_product_urls` catches the
exception, surfaces a user-visible error message, and returns the empty
list instead of propagating. -/
theorem C9_fetch_error (loads : String → Option Json)
    (fetch : String → Except PyErr Soup) (url : String) (e : PyErr)
    (h : fetch url = .error e) :
    (extract_product_urls loads fetch url).products = [] ∧
    (extract_product_urls loads fetch url).errors = [errMsg e] := by
  rw [extract_error loads fetch url e h]
  exact ⟨rfl, rfl⟩

/-- Witness for C9 with an always-failing fetch. -/
theorem C9_witness :
    (extract_product_urls loadsNone fetchFail "url").products = [] ∧
    (extract_product_urls loadsNone fetchFail "url").errors =
      [errMsg (.requestException "connection refused")] :=
  C9_fetch_error loadsNone fetchFail "url"
    (.requestException "connection refused") rfl

/-- C10: in both extractors' mappings the record stored under key `k`
has `code` field `k` (for the DOM extractor, the string `k`); the Apollo
extractor never stores a record whose `code` is None or empty; and every
record in the merged result is stored in one of the two mappings under a
key equal to its `code` field. -/
theorem C10_code_key_discipline :
    (∀ (loads : String → Option Json) (scripts : List (Option String)),
      ∀ p ∈ parse_apollo_data loads scripts,
        p.2.code = p.1 ∧ p.2.code ≠ Json.null ∧ p.2.code ≠ Json.str "") ∧
    (∀ anchors : List Anchor, ∀ p ∈ htmlProducts anchors,
      p.2.code = Json.str p.1) ∧
    (∀ (loads : String → Option Json) (fetch : String → Except PyErr Soup)
      (url : String) (soup : Soup), fetch url = .ok soup →
      ∀ r ∈ (extract_product_urls loads fetch url).products,
        (∃ k, (k, r) ∈ parse_apollo_data loads soup.scripts ∧ r.code = k) ∨
        (∃ c, (c, r) ∈ htmlProducts soup.anchors ∧ r.code = Json.str c)) := by
  refine ⟨?_, ?_, ?_⟩
  · intro loads scripts p hp
    have h := parse_apollo_inv loads scripts p hp
    have h2 : p.1.truthy = true := h.2
    refine ⟨h.1, ?_, ?_⟩
    · intro hk
      have hk2 : p.1 = Json.null := by rw [← h.1]; exact hk
      rw [hk2] at h2
      simp [Json.truthy] at h2
    · intro hk
      have hk2 : p.1 = Json.str "" := by rw [← h.1]; exact hk
      rw [hk2] at h2
      simp [Json.truthy] at h2
  · exact fun anchors p hp => htmlProducts_code_eq_key anchors p hp
  · intro loads fetch url soup hfetch r hr
    by_cases hne : parse_apollo_data loads soup.scripts = []
    · right
      have hprod : (extract_product_urls loads fetch url).products =
          (htmlProducts soup.anchors).map Prod.snd := by
        rw [extract_ok_apollo_empty loads fetch url soup hfetch hne]
      rw [hprod] at hr
      rcases List.mem_map.mp hr with ⟨⟨c, v⟩, hcv, hsnd⟩
      refine ⟨c, ?_, ?_⟩
      · rw [show r = v from hsnd.symm]
        exact hcv
      · rw [show r = v from hsnd.symm]
        exact htmlProducts_code_eq_key soup.anchors (c, v) hcv
    · left
      have hprod : (extract_product_urls loads fetch url).products =
          (parse_apollo_data loads soup.scripts).map Prod.snd := by
        rw [extract_ok_apollo_nonempty loads fetch url soup hfetch hne]
      rw [hprod] at hr
      rcases List.mem_map.mp hr with ⟨⟨k, v⟩, hkv, hsnd⟩
      refine ⟨k, ?_, ?_⟩
      · rw [show r = v from hsnd.symm]
        exact hkv
      · rw [show r = v from hsnd.symm]
        exact (parse_apollo_inv loads soup.scripts (k, v) hkv).1

/-- Witness for C10: the record returned for the demo page is stored in
the Apollo mapping under a key equal to its own `code` field. -/
theorem C10_witness :
    (∃ k, (k, Record.mk (Json.str "P1") (Json.str "N1") Json.null) ∈
        parse_apollo_data loadsDemo soupDemo.scripts ∧
      (Record.mk (Json.str "P1") (Json.str "N1") Json.null).code = k) ∨
    (∃ c, (c, Record.mk (Json.str "P1") (Json.str "N1") Json.null) ∈
        htmlProducts soupDemo.anchors ∧
      (Record.mk (Json.str "P1") (Json.str "N1") Json.null).code =
        Json.str c) :=
  C10_code_key_discipline.2.2 loadsDemo fetchDemo "url" soupDemo rfl
    ⟨Json.str "P1", Json.str "N1", Json.null⟩ (by decide)
